import Mathlib

/-!
# A verification development for the `timeseries` library

This file embeds the core data model of the `timeseries` Python library
(`Series`, `TimeSeries`, `DataFrame`) and its operations as Lean definitions,
and proves the behavioural properties stated in the library's specification.

Modelling conventions:

* Keys and values are rationals (`ℚ`): an exact idealisation of Python's
  int/float numeric tower.  Python `float` rounding error is not modelled.
* Python's `sorted` on `(x, y)` tuples is a stable sort under lexicographic
  tuple comparison; since that comparison is a total antisymmetric order on
  `ℚ × ℚ`, it is modelled by `List.insertionSort` under the same order.
* Python `dict(pairs)` is modelled by an association list where the *last*
  pair with a given key wins (`dictLookup`, `pyDict`).
* Exceptions are modelled with `Except PyError`.
* Mutating methods are modelled as functions returning the receiver's new
  state, paired with a description of the returned object (`Returned`):
  `selfRef` when the method returns the receiver itself, `fresh v` when it
  returns a newly constructed object `v`, `none` when it returns Python
  `None`.
* External collaborators (numpy `polyfit`, R's `forecast`) are oracle
  parameters; calls made to external libraries by `forecast` are recorded
  in an `ExtCall` trace.
-/

/-! ## Python dict model -/

/-- Lookup in a Python dict built with `dict(ps)`: the value attached to the
*last* pair in `ps` whose first component is `k` (later pairs overwrite
earlier ones). -/
def dictLookup {α β : Type} [DecidableEq α] (ps : List (α × β)) (k : α) : Option β :=
  match ps with
  | [] => none
  | (x, y) :: rest =>
    match dictLookup rest k with
    | some v => some v
    | none => if x = k then some y else none

/-- One Python dict assignment `d[k] = v`: if `k` is already present the
entry is updated in place (keeping its position), otherwise `(k, v)` is
appended. -/
def pyDictInsert {α β : Type} [DecidableEq α] (d : List (α × β)) (k : α) (v : β) :
    List (α × β) :=
  if d.any (fun p => decide (p.1 = k)) then
    d.map (fun p => if p.1 = k then (k, v) else p)
  else
    d ++ [(k, v)]

/-- Building a Python dict from a list of pairs: iterate the pairs in order,
later pairs overwriting earlier ones. -/
def pyDict {α β : Type} [DecidableEq α] (ps : List (α × β)) : List (α × β) :=
  ps.foldl (fun d p => pyDictInsert d p.1 p.2) []

/-- Python `del d[k]`: remove the entry stored under `k` (dict keys are
unique, so filtering removes exactly that entry). -/
def pyDictDelete {α β : Type} [DecidableEq α] (d : List (α × β)) (k : α) :
    List (α × β) :=
  d.filter (fun p => decide (p.1 ≠ k))

/-! ## Python `sorted` on pairs -/

/-- Lexicographic comparison of `(x, y)` pairs, exactly Python's tuple
comparison used by `sorted` on a list of 2-tuples. -/
def pointLe (p q : ℚ × ℚ) : Prop :=
  p.1 < q.1 ∨ (p.1 = q.1 ∧ p.2 ≤ q.2)

instance : DecidableRel pointLe := fun p q => by
  unfold pointLe; infer_instance

instance : IsTotal (ℚ × ℚ) pointLe := by
  constructor
  intro a b
  rcases lt_trichotomy a.1 b.1 with h | h | h
  · exact Or.inl (Or.inl h)
  · rcases le_total a.2 b.2 with h2 | h2
    · exact Or.inl (Or.inr ⟨h, h2⟩)
    · exact Or.inr (Or.inr ⟨h.symm, h2⟩)
  · exact Or.inr (Or.inl h)

instance : IsTrans (ℚ × ℚ) pointLe := by
  constructor
  rintro a b c (h | ⟨h, h2⟩) (h' | ⟨h', h2'⟩)
  · exact Or.inl (h.trans h')
  · exact Or.inl (h'.symm ▸ h)
  · exact Or.inl (h ▸ h')
  · exact Or.inr ⟨h.trans h', h2.trans h2'⟩

instance : IsAntisymm (ℚ × ℚ) pointLe := by
  constructor
  rintro ⟨a1, a2⟩ ⟨b1, b2⟩ (h | ⟨h, h2⟩) (h' | ⟨h', h2'⟩)
  · exact absurd (h.trans h') (lt_irrefl _)
  · exact absurd h (h' ▸ lt_irrefl _)
  · exact absurd h' (h ▸ lt_irrefl _)
  · exact Prod.ext h (le_antisymm h2 h2')

/-- Python's `sorted` on a list of `(x, y)` pairs (stable sort under
lexicographic tuple comparison). -/
def pySorted (l : List (ℚ × ℚ)) : List (ℚ × ℚ) :=
  l.insertionSort pointLe

/-- A point list whose keys are strictly increasing
(the well-formedness invariant of a constructed series with unique keys). -/
def strictByKey (l : List (ℚ × ℚ)) : Prop :=
  (l.map Prod.fst).Pairwise (· < ·)

instance : DecidablePred strictByKey := fun l => by
  unfold strictByKey; infer_instance

/-- Keys sorted in (non-strict) ascending order. -/
def ascByKey (l : List (ℚ × ℚ)) : Prop :=
  (l.map Prod.fst).Pairwise (· ≤ ·)

instance : DecidablePred ascByKey := fun l => by
  unfold ascByKey; infer_instance

/-! ## Errors -/

/-- Python exceptions raised by the library. -/
inductive PyError
  | arithmeticError (msg : String)
  | valueError (msg : String)
  | keyError
  | typeError
deriving DecidableEq

/-! ## `Series` -/

/-- `timeseries.Series`: wraps a list of `(x, y)` points. -/
structure Series where
  points : List (ℚ × ℚ)
deriving DecidableEq

/-- `Series.__init__` from a list of pairs: stores `sorted(points)`. -/
def Series.ofPoints (pts : List (ℚ × ℚ)) : Series :=
  ⟨pySorted pts⟩

/-- `Series.__init__` from a dict: `points = dict.items()`, then sorted.
The dict built from `entries` has unique keys with last-write-wins; `sorted`
erases the (arbitrary) `items()` iteration order. -/
def Series.ofDict (entries : List (ℚ × ℚ)) : Series :=
  Series.ofPoints (pyDict entries)

/-- `Series.x`: all x (key) points. -/
def Series.x (s : Series) : List ℚ :=
  s.points.map Prod.fst

/-- `Series.y`: all y (value) points. -/
def Series.y (s : Series) : List ℚ :=
  s.points.map Prod.snd

/-- Right-hand operand of a binary arithmetic operator: a scalar or
another series (Python dispatches with `isinstance(operand, Series)`). -/
inductive Operand
  | scalar (c : ℚ)
  | series (s : Series)

/-- The common shape of `Series ⊕ Series`: build a dict lookup from the
right operand's points, then
`[ (x, f y lookup[x]) for x, y in self.points if x in lookup ]`. -/
def binSeriesPoints (f : ℚ → ℚ → ℚ) (a b : List (ℚ × ℚ)) : List (ℚ × ℚ) :=
  a.filterMap (fun p => (dictLookup b p.1).map (fun v => (p.1, f p.2 v)))

/-- Python `y ** v` for rational `y`, `v`.  Claim-relevant exponents are
integers; a fractional exponent produces an irrational float that has no
exact image in `ℚ`, so it is mapped to `0` here (never exercised by any
theorem below). -/
def pyPow (y v : ℚ) : ℚ :=
  if v.den = 1 then y ^ v.num else 0

/-- `Series.__add__`. -/
def Series.addOp (s : Series) : Operand → Series
  | .scalar c => Series.ofPoints (s.points.map fun p => (p.1, p.2 + c))
  | .series o => Series.ofPoints (binSeriesPoints (fun y v => y + v) s.points o.points)

/-- `Series.__sub__`. -/
def Series.subOp (s : Series) : Operand → Series
  | .scalar c => Series.ofPoints (s.points.map fun p => (p.1, p.2 - c))
  | .series o => Series.ofPoints (binSeriesPoints (fun y v => y - v) s.points o.points)

/-- `Series.__mul__`. -/
def Series.mulOp (s : Series) : Operand → Series
  | .scalar c => Series.ofPoints (s.points.map fun p => (p.1, p.2 * c))
  | .series o => Series.ofPoints (binSeriesPoints (fun y v => y * v) s.points o.points)

/-- `Series.__div__` (`float(y) / operand`: exact division in the `ℚ` model). -/
def Series.divOp (s : Series) : Operand → Series
  | .scalar c => Series.ofPoints (s.points.map fun p => (p.1, p.2 / c))
  | .series o => Series.ofPoints (binSeriesPoints (fun y v => y / v) s.points o.points)

/-- `Series.__pow__`. -/
def Series.powOp (s : Series) : Operand → Series
  | .scalar c => Series.ofPoints (s.points.map fun p => (p.1, pyPow p.2 c))
  | .series o => Series.ofPoints (binSeriesPoints pyPow s.points o.points)

/-- `Series.__iadd__`: replaces `self.points` in place (no constructor, hence
no re-sort) and returns `self`. -/
def Series.iaddOp (s : Series) : Operand → Series
  | .scalar c => ⟨s.points.map fun p => (p.1, p.2 + c)⟩
  | .series o => ⟨binSeriesPoints (fun y v => y + v) s.points o.points⟩

/-- `Series.__isub__`. -/
def Series.isubOp (s : Series) : Operand → Series
  | .scalar c => ⟨s.points.map fun p => (p.1, p.2 - c)⟩
  | .series o => ⟨binSeriesPoints (fun y v => y - v) s.points o.points⟩

/-- `Series.__imul__`. -/
def Series.imulOp (s : Series) : Operand → Series
  | .scalar c => ⟨s.points.map fun p => (p.1, p.2 * c)⟩
  | .series o => ⟨binSeriesPoints (fun y v => y * v) s.points o.points⟩

/-- `Series.__idiv__`. -/
def Series.idivOp (s : Series) : Operand → Series
  | .scalar c => ⟨s.points.map fun p => (p.1, p.2 / c)⟩
  | .series o => ⟨binSeriesPoints (fun y v => y / v) s.points o.points⟩

/-- `Series.__ipow__`. -/
def Series.ipowOp (s : Series) : Operand → Series
  | .scalar c => ⟨s.points.map fun p => (p.1, pyPow p.2 c)⟩
  | .series o => ⟨binSeriesPoints pyPow s.points o.points⟩

/-- numpy `polyval(coefficients, x)`: Horner evaluation, coefficients given
highest degree first. -/
def polyval (coefficients : List ℚ) (x : ℚ) : ℚ :=
  coefficients.foldl (fun acc c => acc * x + c) 0

/-- `Series.trend_coefficients(order)`: raises `ArithmeticError` on an empty
series, otherwise delegates to the external numpy `polyfit` collaborator
(the oracle parameter `fit`). -/
def Series.trend_coefficients (fit : List ℚ → List ℚ → ℕ → List ℚ) (order : ℕ)
    (s : Series) : Except PyError (List ℚ) :=
  if s.points.length = 0 then
    .error (.arithmeticError "Cannot calculate the trend of an empty series")
  else
    .ok (fit s.x s.y order)

/-- `Series.trend(order, positive=True)`: fit coefficients, evaluate the
polynomial at every original x, wrap through the `Series` constructor.
The `positive` argument is accepted but — exactly as in the source — never
used. -/
def Series.trend (fit : List ℚ → List ℚ → ℕ → List ℚ) (order : ℕ)
    (positive : Bool) (s : Series) : Except PyError Series :=
  match s.trend_coefficients fit order with
  | .error e => .error e
  | .ok coefficients =>
    .ok (Series.ofPoints (s.x.zip (s.x.map (polyval coefficients))))

/-- numpy `convolve(a, v)` in (default) full mode:
`out[k] = Σ_j a[j] * v[k - j]`, of length `len(a) + len(v) - 1`. -/
def fullConvolve (a v : List ℚ) : List ℚ :=
  (List.range (a.length + v.length - 1)).map fun k =>
    ((List.range (k + 1)).map fun j => a.getD j 0 * v.getD (k - j) 0).sum

/-- `Series.moving_average(window, method=SIMPLE)`.  The slice
`[window-1 : -(window-1)]` of the full convolution is taken literally: for
`window = 1` the Python stop index `-(window-1)` is `0`, so the slice is
empty; `window = 0` makes numpy `convolve` raise `ValueError` on the empty
weight vector. -/
def Series.moving_average (window : ℕ) (s : Series) : Except PyError Series :=
  if s.points.length < window then
    .error (.arithmeticError "Not enough points for moving average")
  else if window = 0 then
    .error (.valueError "v cannot be empty")
  else
    let weights := List.replicate window ((1 : ℚ) / window)
    let conv := fullConvolve s.y weights
    let stop := if window = 1 then 0 else conv.length - (window - 1)
    let ma_x := s.x.drop (window - 1)
    let ma_y := (conv.take stop).drop (window - 1)
    .ok (Series.ofPoints (ma_x.zip ma_y))

/-- What a (possibly mutating) Python method hands back to its caller. -/
inductive Returned (σ : Type)
  | none
  | selfRef
  | fresh (v : σ)
deriving DecidableEq

/-- `Series.__abs__`: replaces `self.points` with absolute values; the method
body has no `return`, so Python returns `None`. -/
def Series.absMethod (s : Series) : Series × Returned Series :=
  (⟨s.points.map fun p => (p.1, |p.2|)⟩, .none)

/-- Python 2 `round(y, n)`: round half away from zero at `n` decimal places. -/
def pyRound (n : ℤ) (q : ℚ) : ℚ :=
  let m : ℚ := 10 ^ n
  (if 0 ≤ q then ((⌊q * m + 1 / 2⌋ : ℤ) : ℚ) else -((⌊-(q * m) + 1 / 2⌋ : ℤ) : ℚ)) / m

/-- `Series.__round__(n)`: replaces `self.points` with rounded values. -/
def Series.roundDunder (n : ℤ) (s : Series) : Series :=
  ⟨s.points.map fun p => (p.1, pyRound n p.2)⟩

/-- `Series.round()`: no `n` parameter — delegates to `self.__round__(0)`
(mutating the receiver) and returns `self`. -/
def Series.roundMethod (s : Series) : Series × Returned Series :=
  (s.roundDunder 0, .selfRef)

/-- Position of `series[x]` — an integer key or a slice (`series[a:b]`). -/
inductive Index
  | key (k : ℚ)
  | slice (start stop : Option ℤ)

/-- `Series.__getitem__`: `dict(self.points)[x]` — a *key* lookup on a dict
built from the points.  A missing key raises `KeyError`; a slice object is
unhashable, so dict lookup raises `TypeError`. -/
def Series.getItem (s : Series) : Index → Except PyError ℚ
  | .key k =>
    match dictLookup s.points k with
    | some v => .ok v
    | none => .error .keyError
  | .slice _ _ => .error .typeError

/-- The in-place mutations of a `Series` (the spec's "in-place arithmetic,
round, abs"). -/
inductive Mutation
  | iadd (o : Operand)
  | isub (o : Operand)
  | imul (o : Operand)
  | idiv (o : Operand)
  | ipow (o : Operand)
  | roundAll
  | absAll

/-- The receiver's point store after applying one in-place mutation. -/
def applyMutation : Mutation → Series → Series
  | .iadd o, s => s.iaddOp o
  | .isub o, s => s.isubOp o
  | .imul o, s => s.imulOp o
  | .idiv o, s => s.idivOp o
  | .ipow o, s => s.ipowOp o
  | .roundAll, s => (Series.roundMethod s).1
  | .absAll, s => (Series.absMethod s).1

/-! ## `TimeSeries` -/

/-- `timeseries.TimeSeries`: a series whose keys are millisecond epoch
timestamps. -/
structure TimeSeries where
  points : List (ℚ × ℚ)
deriving DecidableEq

/-- `TimeSeries.__init__` from a list of pairs: stores `sorted(points)`. -/
def TimeSeries.ofPoints (pts : List (ℚ × ℚ)) : TimeSeries :=
  ⟨pySorted pts⟩

/-- `TimeSeries.timestamps`. -/
def TimeSeries.timestamps (s : TimeSeries) : List ℚ :=
  s.points.map Prod.fst

/-- `TimeSeries.values`. -/
def TimeSeries.values (s : TimeSeries) : List ℚ :=
  s.points.map Prod.snd

/-- `TimeSeries.interval`: `None` for fewer than two points, otherwise the
difference between the first two (sorted) keys. -/
def TimeSeries.interval (s : TimeSeries) : Option ℚ :=
  if s.points.length ≤ 1 then none
  else some ((s.points.getD 1 (0, 0)).1 - (s.points.getD 0 (0, 0)).1)

/-- `TimeSeries.__abs__`: unlike `Series.__abs__`, builds and returns a *new*
`TimeSeries`; the receiver is left unchanged. -/
def TimeSeries.absMethod (s : TimeSeries) : TimeSeries × Returned TimeSeries :=
  (s, .fresh ⟨s.points.map fun p => (p.1, |p.2|)⟩)

/-- `TimeSeries.__round__(n)`: builds and returns a new `TimeSeries`. -/
def TimeSeries.roundDunder (n : ℤ) (s : TimeSeries) : TimeSeries :=
  ⟨s.points.map fun p => (p.1, pyRound n p.2)⟩

/-- `TimeSeries.round(n=0)`: `return self.__round__(n)` — returns the new
series built by `__round__`; the receiver is left unchanged. -/
def TimeSeries.roundMethod (n : ℤ) (s : TimeSeries) : TimeSeries × Returned TimeSeries :=
  (s, .fresh (s.roundDunder n))

/-- `TimeSeries.ARIMA`. -/
def TimeSeries.ARIMA : String := "arima"

/-- `TimeSeries.ETS`. -/
def TimeSeries.ETS : String := "ets"

/-- A call made to an external collaborator during `forecast`. -/
inductive ExtCall
  | loadRpy2
  | numpyArray (values : List ℚ)
  | rts (values : List ℚ) (frequency : ℤ)
  | autoArima
  | etsFit
  | forecastH (horizon : ℕ)
deriving DecidableEq

/-- Tail of `TimeSeries.forecast` once a recognised method has chosen its
model-fit call: run the fit and the horizon-step forecast, then synthesise
keys `last_x + x * interval` for `x = 1 .. horizon` and pair them with the
forecasted means. -/
def TimeSeries.forecastFinish (forecastMean : List ℚ) (horizon : ℕ)
    (calls : List ExtCall) (fitCall : ExtCall) (s : TimeSeries) :
    List ExtCall × Except PyError TimeSeries :=
  let interval := s.interval.getD 0
  let last_x := (s.points.getLastD (0, 0)).1
  let forecast_x := (List.range horizon).map fun i : ℕ => last_x + ((i : ℚ) + 1) * interval
  (calls ++ [fitCall, ExtCall.forecastH horizon],
    .ok (TimeSeries.ofPoints (forecast_x.zip forecastMean)))

/-- `TimeSeries.forecast(horizon, method=ARIMA, frequency=None)`.  The
external forecasting collaborator's point estimates are the oracle parameter
`forecastMean`; every call to an external library is recorded, in order, in
the returned trace. -/
def TimeSeries.forecast (forecastMean : List ℚ) (horizon : ℕ) (method : String)
    (frequency : Option ℤ) (s : TimeSeries) :
    List ExtCall × Except PyError TimeSeries :=
  if s.points.length ≤ 1 then
    ([], .error (.arithmeticError "Cannot run forecast when len(series) <= 1"))
  else
    let calls := [ExtCall.loadRpy2, ExtCall.numpyArray s.values] ++
      (match frequency with
       | some f => [ExtCall.rts s.values f]
       | none => [])
    if method = TimeSeries.ARIMA then
      s.forecastFinish forecastMean horizon calls .autoArima
    else if method = TimeSeries.ETS then
      s.forecastFinish forecastMean horizon calls .etsFit
    else
      (calls, .error (.valueError "Unknown forecast() method"))

/-! ## `DataFrame` (`TimeSeriesGroup`) -/

/-- `timeseries.DataFrame`: a named group of `TimeSeries`, stored in a
Python dict from label to series. -/
structure DataFrame where
  groups : List (String × TimeSeries)

/-- One iteration of the `DataFrame.rename` loop for the pair
`old → new`: if `old` is a label of the group, store its series under `new`
(overwriting), then delete `old`. -/
def DataFrame.rename1 (old new : String) (g : DataFrame) : DataFrame :=
  match dictLookup g.groups old with
  | some s => ⟨pyDictDelete (pyDictInsert g.groups new s) old⟩
  | none => g

/-- `DataFrame.rename(**kwargs)`: apply `rename1` for every pair. -/
def DataFrame.rename (pairs : List (String × String)) (g : DataFrame) : DataFrame :=
  pairs.foldl (fun g' p => g'.rename1 p.1 p.2) g

/-! ## Lemmas about the dict model -/

theorem dictLookup_eq_none {α β : Type} [DecidableEq α] (l : List (α × β)) (k : α) :
    dictLookup l k = none ↔ k ∉ l.map Prod.fst := by
  induction l with
  | nil => simp [dictLookup]
  | cons p rest ih =>
    obtain ⟨x, y⟩ := p
    simp only [dictLookup, List.map_cons, List.mem_cons]
    cases h : dictLookup rest k with
    | some v =>
      have hk : k ∈ rest.map Prod.fst := by
        by_contra hk
        exact Option.noConfusion (((ih.mpr hk).symm.trans h))
      simp [hk]
    | none =>
      rcases eq_or_ne x k with rfl | hx
      · simp
      · simp [hx, Ne.symm hx, ih.mp h]

theorem dictLookup_isSome {α β : Type} [DecidableEq α] (l : List (α × β)) (k : α) :
    (dictLookup l k).isSome = true ↔ k ∈ l.map Prod.fst := by
  rw [← Decidable.not_iff_not, ← dictLookup_eq_none]
  cases dictLookup l k <;> simp

theorem dictLookup_mem {α β : Type} [DecidableEq α] {l : List (α × β)} {k : α} {v : β}
    (h : dictLookup l k = some v) : (k, v) ∈ l := by
  induction l with
  | nil => simp [dictLookup] at h
  | cons p rest ih =>
    obtain ⟨x, y⟩ := p
    simp only [dictLookup] at h
    cases hr : dictLookup rest k with
    | some w =>
      rw [hr] at h
      exact List.mem_cons_of_mem _ (ih (hr.trans h))
    | none =>
      rw [hr] at h
      rcases eq_or_ne x k with rfl | hx
      · rw [if_pos rfl] at h
        injection h with h2
        subst h2
        exact List.mem_cons_self _ _
      · simp [hx] at h

theorem dictLookup_of_mem {α β : Type} [DecidableEq α] {l : List (α × β)} {k : α} {v : β}
    (hnd : (l.map Prod.fst).Nodup) (hm : (k, v) ∈ l) : dictLookup l k = some v := by
  induction l with
  | nil => simp at hm
  | cons p rest ih =>
    obtain ⟨x, y⟩ := p
    simp only [List.map_cons, List.nodup_cons] at hnd
    rcases List.mem_cons.mp hm with h | h
    · injection h with h1 h2
      subst h1; subst h2
      have hnone : dictLookup rest k = none :=
        (dictLookup_eq_none rest k).mpr hnd.1
      simp [dictLookup, hnone]
    · have := ih hnd.2 h
      simp [dictLookup, this]

/-! ## Lemmas about the sort model -/

theorem sorted_pointLe_of_strict {l : List (ℚ × ℚ)} (h : strictByKey l) :
    l.Sorted pointLe := by
  have := List.pairwise_map.mp h
  exact this.imp fun hlt => Or.inl hlt

theorem pySorted_eq_of_strict {l : List (ℚ × ℚ)} (h : strictByKey l) :
    pySorted l = l :=
  (sorted_pointLe_of_strict h).insertionSort_eq

theorem pySorted_sorted (l : List (ℚ × ℚ)) : (pySorted l).Sorted pointLe :=
  List.sorted_insertionSort pointLe l

theorem pySorted_perm (l : List (ℚ × ℚ)) : (pySorted l).Perm l :=
  List.perm_insertionSort pointLe l

theorem ascByKey_of_sorted_pointLe {l : List (ℚ × ℚ)} (h : l.Sorted pointLe) :
    ascByKey l := by
  refine List.pairwise_map.mpr (h.imp ?_)
  rintro a b (hlt | ⟨heq, _⟩)
  · exact le_of_lt hlt
  · exact le_of_eq heq

theorem ascByKey_pySorted (l : List (ℚ × ℚ)) : ascByKey (pySorted l) :=
  ascByKey_of_sorted_pointLe (pySorted_sorted l)

theorem nodup_keys_of_strict {l : List (ℚ × ℚ)} (h : strictByKey l) :
    (l.map Prod.fst).Nodup :=
  h.imp ne_of_lt

theorem strictByKey_of_keys_eq {l : List (ℚ × ℚ)} {ks : List ℚ}
    (h : l.map Prod.fst = ks) (hks : ks.Pairwise (· < ·)) : strictByKey l := by
  unfold strictByKey
  rw [h]; exact hks

/-! ## Lemmas about the binary-operator join -/

theorem keys_binSeriesPoints (f : ℚ → ℚ → ℚ) (a b : List (ℚ × ℚ)) :
    (binSeriesPoints f a b).map Prod.fst
      = (a.map Prod.fst).filter (fun k => (dictLookup b k).isSome) := by
  induction a with
  | nil => rfl
  | cons p rest ih =>
    obtain ⟨x, y⟩ := p
    simp only [binSeriesPoints, List.filterMap_cons] at *
    cases h : dictLookup b x with
    | none => simpa [h] using ih
    | some v => simpa [h] using ih

theorem keys_mapValues (g : ℚ × ℚ → ℚ) (l : List (ℚ × ℚ)) :
    (l.map fun p => (p.1, g p)).map Prod.fst = l.map Prod.fst := by
  rw [List.map_map]; rfl

theorem mem_keys_binSeriesPoints (f : ℚ → ℚ → ℚ) (a b : List (ℚ × ℚ)) (k : ℚ) :
    k ∈ (binSeriesPoints f a b).map Prod.fst
      ↔ k ∈ a.map Prod.fst ∧ k ∈ b.map Prod.fst := by
  rw [keys_binSeriesPoints, List.mem_filter]
  simp [dictLookup_isSome]

theorem strictByKey_binSeriesPoints (f : ℚ → ℚ → ℚ) {a : List (ℚ × ℚ)}
    (b : List (ℚ × ℚ)) (ha : strictByKey a) : strictByKey (binSeriesPoints f a b) := by
  unfold strictByKey
  rw [keys_binSeriesPoints]
  exact List.Pairwise.sublist (List.filter_sublist _) ha

theorem mem_binSeriesPoints_of_mem (f : ℚ → ℚ → ℚ) {a b : List (ℚ × ℚ)}
    {k va vb : ℚ} (hb : (b.map Prod.fst).Nodup)
    (hma : (k, va) ∈ a) (hmb : (k, vb) ∈ b) :
    (k, f va vb) ∈ binSeriesPoints f a b := by
  refine List.mem_filterMap.mpr ⟨(k, va), hma, ?_⟩
  rw [dictLookup_of_mem hb hmb]
  rfl

/-! ## Lemmas about dict construction -/

theorem keys_map_replace {α β : Type} [DecidableEq α] (d : List (α × β)) (k : α) (v : β) :
    ((d.map fun p => if p.1 = k then (k, v) else p).map Prod.fst) = d.map Prod.fst := by
  rw [List.map_map]
  refine List.map_congr_left ?_
  intro p _
  by_cases h : p.1 = k <;> simp [h]

theorem keys_pyDictInsert {α β : Type} [DecidableEq α] (d : List (α × β)) (k : α) (v : β) :
    ((pyDictInsert d k v).map Prod.fst)
      = if k ∈ d.map Prod.fst then d.map Prod.fst else d.map Prod.fst ++ [k] := by
  unfold pyDictInsert
  by_cases h : k ∈ d.map Prod.fst
  · have hany : (d.any fun p => decide (p.1 = k)) = true := by
      rcases List.mem_map.mp h with ⟨p, hp, rfl⟩
      exact List.any_eq_true.mpr ⟨p, hp, by simp⟩
    rw [if_pos hany, if_pos h]
    exact keys_map_replace d k v
  · have hany : (d.any fun p => decide (p.1 = k)) = false := by
      rw [List.any_eq_false]
      intro p hp
      simp only [decide_eq_true_eq]
      intro hc
      exact h (List.mem_map.mpr ⟨p, hp, hc⟩)
    rw [if_neg (by simp [hany]), if_neg h]
    simp

theorem nodup_keys_pyDictInsert {α β : Type} [DecidableEq α] {d : List (α × β)}
    (hnd : (d.map Prod.fst).Nodup) (k : α) (v : β) :
    ((pyDictInsert d k v).map Prod.fst).Nodup := by
  rw [keys_pyDictInsert]
  by_cases h : k ∈ d.map Prod.fst
  · simpa [h] using hnd
  · rw [if_neg h, List.nodup_append]
    refine ⟨hnd, List.nodup_singleton k, ?_⟩
    intro a ha hb
    rw [List.mem_singleton] at hb
    subst hb
    exact h ha

theorem nodup_keys_pyDict {α β : Type} [DecidableEq α] (l : List (α × β)) :
    ((pyDict l).map Prod.fst).Nodup := by
  suffices h : ∀ (l : List (α × β)) (d : List (α × β)), (d.map Prod.fst).Nodup →
      ((l.foldl (fun d p => pyDictInsert d p.1 p.2) d).map Prod.fst).Nodup by
    exact h l [] List.nodup_nil
  intro l
  induction l with
  | nil => intro d hd; exact hd
  | cons p rest ih =>
    intro d hd
    exact ih _ (nodup_keys_pyDictInsert hd p.1 p.2)

theorem dictLookup_cons {α β : Type} [DecidableEq α] (q : α × β)
    (rest : List (α × β)) (k : α) :
    dictLookup (q :: rest) k
      = (dictLookup rest k).or (if q.1 = k then some q.2 else none) := by
  obtain ⟨x, y⟩ := q
  show (match dictLookup rest k with
        | some v => some v
        | none => if x = k then some y else none) = _
  cases dictLookup rest k <;> rfl

theorem dictLookup_append {α β : Type} [DecidableEq α] (l r : List (α × β)) (k : α) :
    dictLookup (l ++ r) k = (dictLookup r k).or (dictLookup l k) := by
  induction l with
  | nil =>
    show dictLookup r k = (dictLookup r k).or none
    cases dictLookup r k <;> rfl
  | cons p rest ih =>
    obtain ⟨x, y⟩ := p
    rw [List.cons_append, dictLookup_cons, ih, dictLookup_cons]
    cases dictLookup r k <;> cases dictLookup rest k <;> rfl

theorem dictLookup_map_replace_self {α β : Type} [DecidableEq α] {d : List (α × β)}
    {k : α} (hk : k ∈ d.map Prod.fst) (v : β) :
    dictLookup (d.map fun p => if p.1 = k then (k, v) else p) k = some v := by
  induction d with
  | nil => simp at hk
  | cons p rest ih =>
    rw [List.map_cons, dictLookup_cons]
    by_cases hr : k ∈ rest.map Prod.fst
    · rw [ih hr]
      rfl
    · have hnone : dictLookup (rest.map fun p => if p.1 = k then (k, v) else p) k = none := by
        rw [dictLookup_eq_none, keys_map_replace]
        exact hr
      rw [hnone]
      have hpk : p.1 = k := by
        rcases List.mem_map.mp hk with ⟨q, hq, hq1⟩
        rcases List.mem_cons.mp hq with rfl | hq'
        · exact hq1
        · exact absurd (List.mem_map.mpr ⟨q, hq', hq1⟩) hr
      rw [if_pos hpk]
      simp

theorem dictLookup_map_replace_other {α β : Type} [DecidableEq α] (d : List (α × β))
    {k k' : α} (hne : k ≠ k') (v : β) :
    dictLookup (d.map fun p => if p.1 = k then (k, v) else p) k' = dictLookup d k' := by
  induction d with
  | nil => rfl
  | cons p rest ih =>
    rw [List.map_cons, dictLookup_cons, dictLookup_cons, ih]
    by_cases hp : p.1 = k
    · rw [if_pos hp, if_neg hne, if_neg (fun hc => hne (hp ▸ hc))]
    · rw [if_neg hp]

theorem dictLookup_pyDictInsert {α β : Type} [DecidableEq α] (d : List (α × β))
    (k : α) (v : β) (k' : α) :
    dictLookup (pyDictInsert d k v) k'
      = if k = k' then some v else dictLookup d k' := by
  unfold pyDictInsert
  by_cases hmem : d.any (fun p => decide (p.1 = k)) = true
  · have hk : k ∈ d.map Prod.fst := by
      rcases List.any_eq_true.mp hmem with ⟨p, hp, hpk⟩
      exact List.mem_map.mpr ⟨p, hp, by simpa using hpk⟩
    rw [if_pos hmem]
    rcases eq_or_ne k k' with rfl | hne
    · rw [if_pos rfl, dictLookup_map_replace_self hk]
    · rw [if_neg hne, dictLookup_map_replace_other d hne]
  · rw [if_neg hmem, dictLookup_append]
    rcases eq_or_ne k k' with rfl | hne
    · simp [dictLookup]
    · simp [dictLookup, hne]

theorem dictLookup_pyDict {α β : Type} [DecidableEq α] (l : List (α × β)) (k : α) :
    dictLookup (pyDict l) k = dictLookup l k := by
  suffices h : ∀ (l d : List (α × β)),
      dictLookup (l.foldl (fun d p => pyDictInsert d p.1 p.2) d) k
        = match dictLookup l k with
          | some v => some v
          | none => dictLookup d k by
    have := h l []
    cases hl : dictLookup l k <;> simpa [hl, dictLookup] using this
  intro l
  induction l with
  | nil => intro d; rfl
  | cons p rest ih =>
    intro d
    obtain ⟨a, b⟩ := p
    simp only [List.foldl_cons, ih, dictLookup]
    cases hr : dictLookup rest k with
    | some w => rfl
    | none =>
      rw [dictLookup_pyDictInsert]
      rcases eq_or_ne a k with rfl | hne
      · simp
      · simp [hne]

theorem dictLookup_pyDictDelete {α β : Type} [DecidableEq α] (d : List (α × β)) (k : α) :
    dictLookup (pyDictDelete d k) k = none := by
  rw [dictLookup_eq_none]
  intro hk
  rcases List.mem_map.mp hk with ⟨p, hp, hpk⟩
  have := List.of_mem_filter hp
  simp [hpk] at this

/-! ## Constructor and zip helpers -/

theorem ofPoints_points_of_strict {l : List (ℚ × ℚ)} (h : strictByKey l) :
    (Series.ofPoints l).points = l :=
  pySorted_eq_of_strict h

theorem tsOfPoints_points_of_strict {l : List (ℚ × ℚ)} (h : strictByKey l) :
    (TimeSeries.ofPoints l).points = l :=
  pySorted_eq_of_strict h

theorem strictByKey_zip {xs ys : List ℚ} (h : xs.length = ys.length)
    (hxs : xs.Pairwise (· < ·)) : strictByKey (xs.zip ys) := by
  unfold strictByKey
  rw [List.map_fst_zip xs ys h.le]
  exact hxs

theorem keys_binSeriesPoints_filter_mem (f : ℚ → ℚ → ℚ) (a b : List (ℚ × ℚ)) :
    (binSeriesPoints f a b).map Prod.fst
      = (a.map Prod.fst).filter (fun k => decide (k ∈ b.map Prod.fst)) := by
  rw [keys_binSeriesPoints]
  refine List.filter_congr ?_
  intro k _
  by_cases hm : k ∈ b.map Prod.fst
  · simp [hm, (dictLookup_isSome b k).mpr hm]
  · have hn := (dictLookup_eq_none b k).mpr hm
    simp [hm, hn]

/-! ## Claim theorems -/

/-- **C1**: every binary arithmetic operator between two (well-formed)
series performs an inner join on key: the result's keys are exactly the
keys present in both operands, in ascending key order, and each surviving
key `k` carries `f A[k] B[k]`; keys on only one side are dropped without
error.  The five operators `+ - * / **` are all instances of
`binSeriesPoints` wrapped in the `Series` constructor. -/
theorem binary_operators_inner_join (a b : Series)
    (ha : strictByKey a.points) (hb : strictByKey b.points) :
    (∀ f : ℚ → ℚ → ℚ,
      ((Series.ofPoints (binSeriesPoints f a.points b.points)).points.map Prod.fst
          = (a.points.map Prod.fst).filter (fun k => decide (k ∈ b.points.map Prod.fst)))
      ∧ (∀ k : ℚ,
          k ∈ (Series.ofPoints (binSeriesPoints f a.points b.points)).points.map Prod.fst
            ↔ k ∈ a.points.map Prod.fst ∧ k ∈ b.points.map Prod.fst)
      ∧ ((Series.ofPoints (binSeriesPoints f a.points b.points)).points.map Prod.fst).Pairwise (· < ·)
      ∧ (∀ k va vb, (k, va) ∈ a.points → (k, vb) ∈ b.points →
          (k, f va vb) ∈ (Series.ofPoints (binSeriesPoints f a.points b.points)).points))
    ∧ a.addOp (.series b) = Series.ofPoints (binSeriesPoints (fun y v => y + v) a.points b.points)
    ∧ a.subOp (.series b) = Series.ofPoints (binSeriesPoints (fun y v => y - v) a.points b.points)
    ∧ a.mulOp (.series b) = Series.ofPoints (binSeriesPoints (fun y v => y * v) a.points b.points)
    ∧ a.divOp (.series b) = Series.ofPoints (binSeriesPoints (fun y v => y / v) a.points b.points)
    ∧ a.powOp (.series b) = Series.ofPoints (binSeriesPoints pyPow a.points b.points) := by
  refine ⟨?_, rfl, rfl, rfl, rfl, rfl⟩
  intro f
  have hstrict : strictByKey (binSeriesPoints f a.points b.points) :=
    strictByKey_binSeriesPoints f b.points ha
  have hpts : (Series.ofPoints (binSeriesPoints f a.points b.points)).points
      = binSeriesPoints f a.points b.points := ofPoints_points_of_strict hstrict
  refine ⟨?_, ?_, ?_, ?_⟩
  · rw [hpts]
    exact keys_binSeriesPoints_filter_mem f a.points b.points
  · intro k
    rw [hpts]
    exact mem_keys_binSeriesPoints f a.points b.points k
  · rw [hpts]
    exact hstrict
  · intro k va vb hma hmb
    rw [hpts]
    exact mem_binSeriesPoints_of_mem f (nodup_keys_of_strict hb) hma hmb

/-- Witness for C1 at the spec's own example: `A` with keys `{1,2,3}`,
`B` with keys `{0,1,2,3,4}`, combined with `+`. -/
theorem binary_operators_inner_join_witness :
    strictByKey (Series.mk [(1, 3), (2, 3), (3, 3)]).points
    ∧ strictByKey (Series.mk [(0, 1), (1, 1), (2, 1), (3, 1), (4, 1)]).points
    ∧ (Series.mk [(1, 3), (2, 3), (3, 3)]).addOp
          (.series (Series.mk [(0, 1), (1, 1), (2, 1), (3, 1), (4, 1)]))
        = Series.ofPoints (binSeriesPoints (fun y v => y + v)
            (Series.mk [(1, 3), (2, 3), (3, 3)]).points
            (Series.mk [(0, 1), (1, 1), (2, 1), (3, 1), (4, 1)]).points) :=
  ⟨by decide, by decide,
    (binary_operators_inner_join
      (Series.mk [(1, 3), (2, 3), (3, 3)])
      (Series.mk [(0, 1), (1, 1), (2, 1), (3, 1), (4, 1)])
      (by decide) (by decide)).2.1⟩

/-- **C2 (amended)**: for a non-empty well-formed series, `trend` succeeds
and returns a series with the same keys in the same order and the same
point count, whose values are the *raw* polynomial evaluations delivered by
the external fit collaborator — the `positive` flag is accepted but has no
effect, so no clamping to `≥ 0` takes place. -/
theorem trend_same_keys_no_clamping (fit : List ℚ → List ℚ → ℕ → List ℚ)
    (order : ℕ) (positive : Bool) (s : Series)
    (hs : strictByKey s.points) (hne : s.points.length ≠ 0) :
    ∃ t, Series.trend fit order positive s = .ok t
      ∧ t.points.map Prod.fst = s.points.map Prod.fst
      ∧ t.points.length = s.points.length
      ∧ t.points.map Prod.snd = s.x.map (polyval (fit s.x s.y order)) := by
  have hcoeff : s.trend_coefficients fit order = .ok (fit s.x s.y order) := by
    unfold Series.trend_coefficients
    rw [if_neg hne]
  have hlen : s.x.length = (s.x.map (polyval (fit s.x s.y order))).length := by
    rw [List.length_map]
  have hkeys : (s.x.zip (s.x.map (polyval (fit s.x s.y order)))).map Prod.fst = s.x :=
    List.map_fst_zip _ _ hlen.le
  have hvals : (s.x.zip (s.x.map (polyval (fit s.x s.y order)))).map Prod.snd
      = s.x.map (polyval (fit s.x s.y order)) :=
    List.map_snd_zip _ _ hlen.ge
  have hstrict : strictByKey (s.x.zip (s.x.map (polyval (fit s.x s.y order)))) :=
    strictByKey_zip hlen hs
  refine ⟨Series.ofPoints (s.x.zip (s.x.map (polyval (fit s.x s.y order)))), ?_, ?_, ?_, ?_⟩
  · unfold Series.trend
    rw [hcoeff]
  · rw [ofPoints_points_of_strict hstrict, hkeys]
    rfl
  · rw [ofPoints_points_of_strict hstrict, List.length_zip, ← hlen, min_self,
      Series.x, List.length_map]
  · rw [ofPoints_points_of_strict hstrict, hvals]

/-- Witness for C2's amended theorem on a concrete two-point series with a
concrete fit oracle. -/
theorem trend_same_keys_no_clamping_witness :
    strictByKey (Series.mk [(0, -1), (1, -1)]).points
    ∧ (Series.mk [(0, -1), (1, -1)]).points.length ≠ 0
    ∧ ∃ t, Series.trend (fun _ _ _ => [0, -1]) 1 true (Series.mk [(0, -1), (1, -1)]) = .ok t
        ∧ t.points.map Prod.fst = (Series.mk [(0, -1), (1, -1)]).points.map Prod.fst
        ∧ t.points.length = (Series.mk [(0, -1), (1, -1)]).points.length
        ∧ t.points.map Prod.snd
            = (Series.mk [(0, -1), (1, -1)]).x.map
                (polyval ((fun _ _ _ => [0, -1]) (Series.mk [(0, -1), (1, -1)]).x
                  (Series.mk [(0, -1), (1, -1)]).y 1)) :=
  ⟨by decide, by decide,
    trend_same_keys_no_clamping (fun _ _ _ => [0, -1]) 1 true
      (Series.mk [(0, -1), (1, -1)]) (by decide) (by decide)⟩

/-- **C2 (counterexample)**: on the series `[(0, -1), (1, -1)]` the external
least-squares line fit is exact, with coefficients `[0, -1]` (the constant
polynomial `-1`); `trend(order=1, positive=True)` returns fitted values
`[-1, -1]`, which are negative although `positive` is set — the claimed
clamping to `≥ 0` does not happen. -/
theorem trend_positive_flag_cx :
    Series.trend (fun _ _ _ => [0, -1]) 1 true (Series.mk [(0, -1), (1, -1)])
        = .ok (Series.mk [(0, -1), (1, -1)])
    ∧ ¬ ((0 : ℚ) ≤ -1) := by
  constructor
  · show Except.ok (Series.ofPoints _) = _
    have h0 : polyval [0, -1] 0 = -1 := by
      simp [polyval]
    have h1 : polyval [0, -1] 1 = -1 := by
      simp [polyval]
    simp only [Series.x, Series.y, List.map_cons, List.map_nil, h0, h1]
    rfl
  · norm_num

theorem fullConvolve_length (a v : List ℚ) :
    (fullConvolve a v).length = a.length + v.length - 1 := by
  unfold fullConvolve
  rw [List.length_map, List.length_range]

/-- **C3 (amended)**: for every well-formed series and window `w ≥ 2`,
`moving_average` fails with an `ArithmeticError` when the point count is
below `w`, and otherwise returns a series of exactly `count - w + 1` points
whose key list is the input key list with its first `w - 1` entries
dropped (the average is indexed by the END of its window).  For `w = 1`
the Python slice `[0:-0]` is empty, so the result is an empty series
(see the counterexample), and `w = 0` raises numpy's `ValueError` instead. -/
theorem moving_average_end_indexed (s : Series) (w : ℕ)
    (hs : strictByKey s.points) (hw : 2 ≤ w) :
    (s.points.length < w →
      Series.moving_average w s = .error (.arithmeticError "Not enough points for moving average"))
    ∧ (w ≤ s.points.length →
        ∃ t, Series.moving_average w s = .ok t
          ∧ t.points.length = s.points.length - w + 1
          ∧ t.points.map Prod.fst = (s.points.map Prod.fst).drop (w - 1)) := by
  constructor
  · intro hlt
    unfold Series.moving_average
    rw [if_pos hlt]
  · intro hle
    have hw0 : w ≠ 0 := by omega
    have hw1 : w ≠ 1 := by omega
    have hnlt : ¬ s.points.length < w := not_lt.mpr hle
    have hylen : s.y.length = s.points.length := List.length_map _ _
    have hconv : (fullConvolve s.y (List.replicate w ((1 : ℚ) / w))).length
        = s.points.length + w - 1 := by
      rw [fullConvolve_length, hylen, List.length_replicate]
    have hmyl : (((fullConvolve s.y (List.replicate w ((1 : ℚ) / w))).take
          ((fullConvolve s.y (List.replicate w ((1 : ℚ) / w))).length - (w - 1))).drop
            (w - 1)).length = s.points.length - w + 1 := by
      rw [List.length_drop, List.length_take, hconv]
      omega
    have hmxl : (s.x.drop (w - 1)).length = s.points.length - w + 1 := by
      rw [List.length_drop, Series.x, List.length_map]
      omega
    have hlens : (s.x.drop (w - 1)).length
        = (((fullConvolve s.y (List.replicate w ((1 : ℚ) / w))).take
            ((fullConvolve s.y (List.replicate w ((1 : ℚ) / w))).length - (w - 1))).drop
              (w - 1)).length := by
      rw [hmyl, hmxl]
    have hdropstrict : (s.x.drop (w - 1)).Pairwise (· < ·) :=
      List.Pairwise.sublist (List.drop_sublist _ _) hs
    have hstrict : strictByKey ((s.x.drop (w - 1)).zip
        (((fullConvolve s.y (List.replicate w ((1 : ℚ) / w))).take
          ((fullConvolve s.y (List.replicate w ((1 : ℚ) / w))).length - (w - 1))).drop
            (w - 1))) := strictByKey_zip hlens hdropstrict
    refine ⟨Series.ofPoints ((s.x.drop (w - 1)).zip
      (((fullConvolve s.y (List.replicate w ((1 : ℚ) / w))).take
        ((fullConvolve s.y (List.replicate w ((1 : ℚ) / w))).length - (w - 1))).drop
          (w - 1))), ?_, ?_, ?_⟩
    · unfold Series.moving_average
      rw [if_neg hnlt, if_neg hw0]
      simp only [if_neg hw1]
    · rw [ofPoints_points_of_strict hstrict, List.length_zip, ← hlens, min_self, hmxl]
    · rw [ofPoints_points_of_strict hstrict, List.map_fst_zip _ _ hlens.le]
      rfl

/-- Witness for C3's amended theorem: six points, window 3 (both the
error branch at count 2 and the success branch at count 6 are exercised
through the same theorem application). -/
theorem moving_average_end_indexed_witness :
    strictByKey (Series.mk [(1, 1), (2, 2), (3, 3), (4, 4), (5, 5), (6, 6)]).points
    ∧ (3 ≤ (Series.mk [(1, 1), (2, 2), (3, 3), (4, 4), (5, 5), (6, 6)]).points.length →
        ∃ t, Series.moving_average 3 (Series.mk [(1, 1), (2, 2), (3, 3), (4, 4), (5, 5), (6, 6)]) = .ok t
          ∧ t.points.length
              = (Series.mk [(1, 1), (2, 2), (3, 3), (4, 4), (5, 5), (6, 6)]).points.length - 3 + 1
          ∧ t.points.map Prod.fst
              = ((Series.mk [(1, 1), (2, 2), (3, 3), (4, 4), (5, 5), (6, 6)]).points.map Prod.fst).drop
                  (3 - 1)) :=
  ⟨by decide,
    (moving_average_end_indexed
      (Series.mk [(1, 1), (2, 2), (3, 3), (4, 4), (5, 5), (6, 6)]) 3
      (by decide) (by decide)).2⟩

/-- **C3 (counterexample)**: with window `w = 1` on the two-point series
`[(1, 1), (2, 2)]` the code returns an *empty* series (the Python slice
`conv[0:-0]` is `conv[0:0] = []`), not the `n - w + 1 = 2` points the claim
requires. -/
theorem moving_average_window_one_cx :
    Series.moving_average 1 (Series.mk [(1, 1), (2, 2)]) = .ok (Series.mk [])
    ∧ (Series.mk ([] : List (ℚ × ℚ))).points.length ≠ 2 - 1 + 1 := by
  constructor
  · rfl
  · decide

/-- **C4 (amended)**: `Series.round()` (which supports only `n = 0`) rounds
every value, mutates the receiver and returns it; `Series.__abs__` replaces
every value with its absolute value by mutating the receiver but returns
`None`, not the receiver; `TimeSeries.round(n)` and `TimeSeries.__abs__`
leave the receiver untouched and instead return a *new* `TimeSeries` with
the transformed values.  In every case keys and their order are unchanged. -/
theorem round_abs_mutation_semantics (s : Series) (t : TimeSeries) (n : ℤ) :
    Series.roundMethod s
        = (⟨s.points.map fun p => (p.1, pyRound 0 p.2)⟩, Returned.selfRef)
    ∧ Series.absMethod s
        = (⟨s.points.map fun p => (p.1, |p.2|)⟩, Returned.none)
    ∧ TimeSeries.roundMethod n t
        = (t, Returned.fresh ⟨t.points.map fun p => (p.1, pyRound n p.2)⟩)
    ∧ TimeSeries.absMethod t
        = (t, Returned.fresh ⟨t.points.map fun p => (p.1, |p.2|)⟩)
    ∧ (Series.roundMethod s).1.points.map Prod.fst = s.points.map Prod.fst
    ∧ (Series.absMethod s).1.points.map Prod.fst = s.points.map Prod.fst
    ∧ (t.roundDunder n).points.map Prod.fst = t.points.map Prod.fst
    ∧ (t.points.map fun p => (p.1, |p.2|)).map Prod.fst = t.points.map Prod.fst := by
  refine ⟨rfl, rfl, rfl, rfl, ?_, ?_, ?_, ?_⟩
  · exact keys_mapValues _ s.points
  · exact keys_mapValues _ s.points
  · exact keys_mapValues _ t.points
  · exact keys_mapValues _ t.points

/-- **C4 (counterexample)**: `TimeSeries.round` does *not* mutate the
receiver and does *not* return the receiver: on `[(1, 3/2)]` the receiver
still holds `3/2` after the call while a fresh series holding `2` is
returned; and `Series.__abs__` returns `None` rather than the receiver. -/
theorem round_abs_mutation_cx :
    (TimeSeries.roundMethod 0 ⟨[(1, 3 / 2)]⟩).1 = (⟨[(1, 3 / 2)]⟩ : TimeSeries)
    ∧ (TimeSeries.roundMethod 0 ⟨[(1, 3 / 2)]⟩).2
        = Returned.fresh (⟨[(1, 2)]⟩ : TimeSeries)
    ∧ ((3 : ℚ) / 2 ≠ 2)
    ∧ (Series.absMethod ⟨[(1, -3)]⟩).2 = Returned.none := by
  refine ⟨rfl, ?_, by norm_num, rfl⟩
  have hr : pyRound 0 (3 / 2) = 2 := by
    unfold pyRound
    norm_num
  show Returned.fresh (TimeSeries.mk [(1, pyRound 0 (3 / 2))]) = _
  rw [hr]

/-- **C5 (amended)**: on a series with more than one point, `forecast` with
an unrecognised method fails with `ValueError`, and no model-fit or
forecast call is made to the external collaborator; the error is however
raised only *after* the collaborator libraries are loaded, the value array
is built, and — when `frequency` is given — after the collaborator's `ts`
tagging call (see the counterexample). -/
theorem forecast_invalid_method (s : TimeSeries) (ys : List ℚ) (h : ℕ)
    (method : String) (freq : Option ℤ)
    (hn : 1 < s.points.length)
    (hm : method ≠ TimeSeries.ARIMA ∧ method ≠ TimeSeries.ETS) :
    (s.forecast ys h method freq).2 = .error (.valueError "Unknown forecast() method")
    ∧ ExtCall.autoArima ∉ (s.forecast ys h method freq).1
    ∧ ExtCall.etsFit ∉ (s.forecast ys h method freq).1
    ∧ ∀ m : ℕ, ExtCall.forecastH m ∉ (s.forecast ys h method freq).1 := by
  have hn1 : ¬ s.points.length ≤ 1 := not_le.mpr hn
  unfold TimeSeries.forecast
  simp only [if_neg hn1, if_neg hm.1, if_neg hm.2]
  refine ⟨by trivial, ?_, ?_, ?_⟩
  · cases freq <;> simp
  · cases freq <;> simp
  · intro m
    cases freq <;> simp

/-- Witness for C5's amended theorem: five points, method `"huh"`. -/
theorem forecast_invalid_method_witness :
    (1 < (TimeSeries.mk [(1, 100), (2, 200), (3, 100), (4, 200), (5, 100)]).points.length)
    ∧ ((TimeSeries.mk [(1, 100), (2, 200), (3, 100), (4, 200), (5, 100)]).forecast
          [] 7 "huh" Option.none).2 = .error (.valueError "Unknown forecast() method") :=
  ⟨by decide,
    (forecast_invalid_method (TimeSeries.mk [(1, 100), (2, 200), (3, 100), (4, 200), (5, 100)])
      [] 7 "huh" Option.none (by decide) (by decide)).1⟩

/-- **C5 (counterexample)**: with `frequency` given, the trace produced
before the `ValueError` for the invalid method `"huh"` already contains the
external collaborator's `ts` call (and the library load and value-array
build), so the error is *not* reported before any call to an external
collaborator is made. -/
theorem forecast_invalid_method_cx :
    (TimeSeries.forecast [] 7 "huh" (some 4)
        ⟨[(1, 100), (2, 200), (3, 100), (4, 200), (5, 100)]⟩).2
      = .error (.valueError "Unknown forecast() method")
    ∧ ExtCall.rts [100, 200, 100, 200, 100] 4
        ∈ (TimeSeries.forecast [] 7 "huh" (some 4)
            ⟨[(1, 100), (2, 200), (3, 100), (4, 200), (5, 100)]⟩).1 := by
  exact ⟨rfl, by decide⟩

/-- **C6**: on a well-formed series with more than one point, `forecast`
with a recognised method and an oracle returning `horizon` point estimates
returns a new `TimeSeries` of exactly `horizon` points whose `i`-th key is
`last observed key + (i+1) × interval` (where `interval` is the difference
between the first two sorted keys), paired in order with the forecasted
values. -/
theorem forecast_synthesized_keys (s : TimeSeries) (ys : List ℚ) (h : ℕ)
    (method : String) (freq : Option ℤ)
    (hs : strictByKey s.points) (hn : 1 < s.points.length)
    (hy : ys.length = h) (hm : method = TimeSeries.ARIMA ∨ method = TimeSeries.ETS) :
    ∃ t, (s.forecast ys h method freq).2 = .ok t
      ∧ t.points.length = h
      ∧ t.points.map Prod.fst
          = (List.range h).map
              (fun i : ℕ => (s.points.getLastD (0, 0)).1 + ((i : ℚ) + 1) * s.interval.getD 0)
      ∧ t.points.map Prod.snd = ys := by
  have hn1 : ¬ s.points.length ≤ 1 := not_le.mpr hn
  have hivl : 0 < s.interval.getD 0 := by
    have h0 : (0 : ℕ) < s.points.length := by omega
    have h1 : (1 : ℕ) < s.points.length := hn
    have hkey : (s.points.getD 0 (0, 0)).1 < (s.points.getD 1 (0, 0)).1 := by
      rw [List.getD_eq_getElem _ _ h0, List.getD_eq_getElem _ _ h1]
      have hpw := List.pairwise_iff_getElem.mp hs
      have h2 := hpw 0 1 (by simpa using h0) (by simpa using h1) (by omega)
      simpa using h2
    unfold TimeSeries.interval
    rw [if_neg hn1, Option.getD_some]
    exact sub_pos.mpr hkey
  have hxlen : ((List.range h).map
      (fun i : ℕ => (s.points.getLastD (0, 0)).1 + ((i : ℚ) + 1) * s.interval.getD 0)).length
        = ys.length := by
    simp [hy]
  have hxpw : ((List.range h).map
      (fun i : ℕ => (s.points.getLastD (0, 0)).1 + ((i : ℚ) + 1) * s.interval.getD 0)).Pairwise
        (· < ·) := by
    rw [List.pairwise_map]
    refine (List.pairwise_lt_range h).imp ?_
    intro i j hij
    have : ((i : ℚ) + 1) < ((j : ℚ) + 1) := by
      have : (i : ℚ) < (j : ℚ) := by exact_mod_cast hij
      linarith
    have := mul_lt_mul_of_pos_right this hivl
    linarith
  have hstrict : strictByKey (((List.range h).map
      (fun i : ℕ => (s.points.getLastD (0, 0)).1 + ((i : ℚ) + 1) * s.interval.getD 0)).zip ys) :=
    strictByKey_zip hxlen hxpw
  have hfin : ∀ c : ExtCall,
      (s.forecastFinish ys h
        ([ExtCall.loadRpy2, ExtCall.numpyArray s.values] ++
          (match freq with
           | some f => [ExtCall.rts s.values f]
           | none => [])) c).2
        = .ok (TimeSeries.ofPoints (((List.range h).map
            (fun i : ℕ => (s.points.getLastD (0, 0)).1 + ((i : ℚ) + 1) * s.interval.getD 0)).zip ys)) := by
    intro c
    rfl
  refine ⟨TimeSeries.ofPoints (((List.range h).map
      (fun i : ℕ => (s.points.getLastD (0, 0)).1 + ((i : ℚ) + 1) * s.interval.getD 0)).zip ys),
    ?_, ?_, ?_, ?_⟩
  · unfold TimeSeries.forecast
    rcases hm with rfl | rfl
    · simp only [if_neg hn1, if_pos rfl]
      exact hfin .autoArima
    · have hne : TimeSeries.ETS ≠ TimeSeries.ARIMA := by decide
      simp only [if_neg hn1, if_neg hne, if_pos rfl]
      exact hfin .etsFit
  · rw [tsOfPoints_points_of_strict hstrict, List.length_zip, hxlen, hy, min_self]
  · rw [tsOfPoints_points_of_strict hstrict, List.map_fst_zip _ _ hxlen.le]
  · rw [tsOfPoints_points_of_strict hstrict, List.map_snd_zip _ _ hxlen.ge]

/-- Witness for C6 on the test suite's five-point series with horizon 3. -/
theorem forecast_synthesized_keys_witness :
    strictByKey (TimeSeries.mk [(1, 100), (2, 200), (3, 100), (4, 200), (5, 100)]).points
    ∧ (1 < (TimeSeries.mk [(1, 100), (2, 200), (3, 100), (4, 200), (5, 100)]).points.length)
    ∧ ([(110 : ℚ), 120, 130].length = 3)
    ∧ ∃ t, ((TimeSeries.mk [(1, 100), (2, 200), (3, 100), (4, 200), (5, 100)]).forecast
          [(110 : ℚ), 120, 130] 3 TimeSeries.ARIMA Option.none).2 = .ok t
        ∧ t.points.length = 3
        ∧ t.points.map Prod.snd = [(110 : ℚ), 120, 130] := by
  refine ⟨by decide, by decide, by decide, ?_⟩
  obtain ⟨t, h1, h2, _, h4⟩ :=
    forecast_synthesized_keys (TimeSeries.mk [(1, 100), (2, 200), (3, 100), (4, 200), (5, 100)])
      [(110 : ℚ), 120, 130] 3 TimeSeries.ARIMA Option.none
      (by decide) (by decide) (by decide) (Or.inl rfl)
  exact ⟨t, h1, h2, h4⟩

/-- **C7 (amended)**: `series[x]` is a *key* lookup, not positional: it
returns the value stored at key `x` (`KeyError` when `x` is not a key), and
indexing with a slice raises `TypeError` because the slice object is not a
hashable dict key. -/
theorem getitem_is_key_lookup (s : Series) (hs : strictByKey s.points) :
    (∀ k v : ℚ, (k, v) ∈ s.points → s.getItem (.key k) = .ok v)
    ∧ (∀ k : ℚ, k ∉ s.points.map Prod.fst → s.getItem (.key k) = .error .keyError)
    ∧ (∀ a b : Option ℤ, s.getItem (.slice a b) = .error .typeError) := by
  refine ⟨?_, ?_, fun a b => rfl⟩
  · intro k v hm
    show (match dictLookup s.points k with
          | some w => Except.ok w
          | none => Except.error PyError.keyError) = Except.ok v
    rw [dictLookup_of_mem (nodup_keys_of_strict hs) hm]
  · intro k hk
    show (match dictLookup s.points k with
          | some w => Except.ok w
          | none => Except.error PyError.keyError) = Except.error PyError.keyError
    rw [(dictLookup_eq_none _ _).mpr hk]

/-- Witness for C7's amended theorem (the test suite's indexing example:
key `4` is absent, so `KeyError`; key `1` holds value `3`). -/
theorem getitem_is_key_lookup_witness :
    strictByKey (Series.mk [(1, 3), (2, 3), (3, 3)]).points
    ∧ ((1 : ℚ), (3 : ℚ)) ∈ (Series.mk [(1, 3), (2, 3), (3, 3)]).points
    ∧ (Series.mk [(1, 3), (2, 3), (3, 3)]).getItem (.key 1) = .ok 3
    ∧ (Series.mk [(1, 3), (2, 3), (3, 3)]).getItem (.key 4) = .error .keyError :=
  ⟨by decide, by decide,
    (getitem_is_key_lookup (Series.mk [(1, 3), (2, 3), (3, 3)]) (by decide)).1 1 3 (by decide),
    (getitem_is_key_lookup (Series.mk [(1, 3), (2, 3), (3, 3)]) (by decide)).2.1 4 (by decide)⟩

/-- **C7 (counterexample)**: on `[(5, 1), (6, 2)]`, indexing by the integer
position `0` does *not* return the pair `(5, 1)` stored at position `0` —
it raises `KeyError` because `0` is not a key; and indexing by a slice does
not return a sub-sequence — it raises `TypeError`. -/
theorem getitem_positional_cx :
    (Series.mk [(5, 1), (6, 2)]).getItem (.key 0) = .error .keyError
    ∧ (Series.mk [(5, 1), (6, 2)]).points.getD 0 (0, 0) = (5, 1)
    ∧ (Series.mk [(5, 1), (6, 2)]).getItem (.slice (some 0) (some 2)) = .error .typeError :=
  ⟨rfl, rfl, rfl⟩

theorem ascByKey_mapValues (g : ℚ × ℚ → ℚ) {l : List (ℚ × ℚ)} (hl : ascByKey l) :
    ascByKey (l.map fun p => (p.1, g p)) := by
  unfold ascByKey
  rw [keys_mapValues]
  exact hl

theorem ascByKey_binSeriesPoints (f : ℚ → ℚ → ℚ) (b : List (ℚ × ℚ))
    {a : List (ℚ × ℚ)} (ha : ascByKey a) : ascByKey (binSeriesPoints f a b) := by
  unfold ascByKey
  rw [keys_binSeriesPoints]
  exact List.Pairwise.sublist (List.filter_sublist _) ha

/-- **C8**: the stored point sequence is sorted ascending by key after
construction from a pair list or a mapping (the empty input giving an empty
store), the sorted invariant is re-established by every in-place mutation
(the five in-place arithmetic operators in both scalar and series form,
`round`, `abs`), and constructing from any two permutations of the same
pair list — in particular an unordered list and its pre-sorted version —
yields identical stored order. -/
theorem sorted_invariant_construction_mutation :
    (∀ pts : List (ℚ × ℚ), ascByKey (Series.ofPoints pts).points)
    ∧ (∀ entries : List (ℚ × ℚ), ascByKey (Series.ofDict entries).points)
    ∧ Series.ofPoints [] = Series.mk []
    ∧ (∀ (m : Mutation) (s : Series), ascByKey s.points → ascByKey (applyMutation m s).points)
    ∧ (∀ l l' : List (ℚ × ℚ), l.Perm l' → Series.ofPoints l = Series.ofPoints l') := by
  refine ⟨?_, ?_, rfl, ?_, ?_⟩
  · intro pts
    exact ascByKey_pySorted pts
  · intro entries
    exact ascByKey_pySorted (pyDict entries)
  · intro m s hs
    cases m with
    | iadd o =>
      cases o with
      | scalar c => exact ascByKey_mapValues _ hs
      | series o => exact ascByKey_binSeriesPoints _ _ hs
    | isub o =>
      cases o with
      | scalar c => exact ascByKey_mapValues _ hs
      | series o => exact ascByKey_binSeriesPoints _ _ hs
    | imul o =>
      cases o with
      | scalar c => exact ascByKey_mapValues _ hs
      | series o => exact ascByKey_binSeriesPoints _ _ hs
    | idiv o =>
      cases o with
      | scalar c => exact ascByKey_mapValues _ hs
      | series o => exact ascByKey_binSeriesPoints _ _ hs
    | ipow o =>
      cases o with
      | scalar c => exact ascByKey_mapValues _ hs
      | series o => exact ascByKey_binSeriesPoints _ _ hs
    | roundAll => exact ascByKey_mapValues _ hs
    | absAll => exact ascByKey_mapValues _ hs
  · intro l l' hperm
    unfold Series.ofPoints
    have h1 : (pySorted l).Perm (pySorted l') :=
      ((pySorted_perm l).trans hperm).trans (pySorted_perm l').symm
    have h2 := List.eq_of_perm_of_sorted h1 (pySorted_sorted l) (pySorted_sorted l')
    rw [h2]

/-- Witness for C8's mutation clause: in-place `+=` of the spec's example
series `B` into `A` keeps the keys ascending. -/
theorem sorted_invariant_construction_mutation_witness :
    ascByKey (Series.mk [(1, 3), (2, 3), (3, 3)]).points
    ∧ ascByKey (applyMutation
        (Mutation.iadd (.series (Series.mk [(0, 1), (1, 1), (2, 1), (3, 1), (4, 1)])))
        (Series.mk [(1, 3), (2, 3), (3, 3)])).points :=
  ⟨by decide,
    sorted_invariant_construction_mutation.2.2.2.1
      (Mutation.iadd (.series (Series.mk [(0, 1), (1, 1), (2, 1), (3, 1), (4, 1)])))
      (Series.mk [(1, 3), (2, 3), (3, 3)]) (by decide)⟩

/-- **C9 (amended)**: a series constructed from a *mapping* has pairwise
distinct keys — the mapping's own key-uniqueness (last write wins, as the
`dictLookup` equation states) resolves duplicates before ingestion.  A pair
list that repeats a key, however, produces a series that stores the key
more than once (see the counterexample). -/
theorem mapping_input_unique_keys (entries : List (ℚ × ℚ)) (k : ℚ) :
    ((Series.ofDict entries).points.map Prod.fst).Nodup
    ∧ dictLookup (pyDict entries) k = dictLookup entries k := by
  constructor
  · have hperm : (Series.ofDict entries).points.Perm (pyDict entries) := pySorted_perm _
    have hkeys := hperm.map Prod.fst
    exact hkeys.nodup_iff.mpr (nodup_keys_pyDict entries)
  · exact dictLookup_pyDict entries k

/-- **C9 (counterexample)**: the pair list `[(1, 2), (1, 3)]` repeats key
`1`, and the constructed series still contains both points — construction
does not deduplicate pair-list keys. -/
theorem pair_list_duplicate_keys_cx :
    (Series.ofPoints [(1, 2), (1, 3)]).points = [(1, 2), (1, 3)]
    ∧ ¬ ((Series.ofPoints [(1, 2), (1, 3)]).points.map Prod.fst).Nodup :=
  ⟨rfl, by decide⟩

/-- **C10**: renaming a label to itself removes it from the group: the
`rename` loop body stores the series under `new = k` (a no-op) and then
deletes `old = k`, so afterwards the group no longer contains the label and
the member series is no longer reachable through it. -/
theorem rename_to_self_removes_label (g : DataFrame) (k : String)
    (hk : k ∈ g.groups.map Prod.fst) :
    k ∉ (DataFrame.rename1 k k g).groups.map Prod.fst
    ∧ dictLookup (DataFrame.rename1 k k g).groups k = none := by
  have hsome : dictLookup g.groups k ≠ none := by
    intro hnone
    exact (dictLookup_eq_none g.groups k).mp hnone hk
  obtain ⟨s, hs⟩ := Option.ne_none_iff_exists'.mp hsome
  unfold DataFrame.rename1
  rw [hs]
  constructor
  · intro hmem
    rcases List.mem_map.mp hmem with ⟨p, hp, hpk⟩
    have := List.of_mem_filter hp
    simp [hpk] at this
  · exact dictLookup_pyDictDelete _ k

/-- Witness for C10 on a one-member group. -/
theorem rename_to_self_removes_label_witness :
    ("a" ∈ (DataFrame.mk [("a", TimeSeries.mk [(1, 2)])]).groups.map Prod.fst)
    ∧ "a" ∉ (DataFrame.rename1 "a" "a"
        (DataFrame.mk [("a", TimeSeries.mk [(1, 2)])])).groups.map Prod.fst :=
  ⟨by decide,
    (rename_to_self_removes_label (DataFrame.mk [("a", TimeSeries.mk [(1, 2)])]) "a"
      (by decide)).1⟩
